import Mathlib

/-!
Verification of the `when_present` tool (src/main.cpp): a two-phase engine
that (a) builds a forest of preprocessor-conditional groups from a source
file's lines and (b) answers reachability queries: for a target line number,
the ordered trace of branch requirements (TRUE/FALSE) under which the line
is part of the compiled unit.

The development shallowly embeds the C++ source:
  - `Conditional` / `Block` mirror `struct conditional` / `struct conditional_block`;
  - `classify` mirrors the directive-classification part of `main`'s read loop
    (whitespace skipping, the leading '#', and the alphabetic keyword run);
  - `mergeCont` / `logicalLines` mirror the backslash line-continuation merging
    and the `currentLineNumber += linesRead` accounting;
  - `buildStep` / `buildFrom` / `build` mirror the stack-based tree builder;
  - `process_line` / `processBlocks` mirror the recursive query `process_line`;
  - `parseLoop` / `parseArgs` / `whenPresentMain` / `runTool` mirror argument
    handling and the driver, with exit codes as `Int` values (`0`, `1`, `-1`)
    equal to `main`'s return values.
-/

/-- One output record of the query: `REQUIRES TRUE/FALSE (line): text`.
`req` is `true` for a `REQUIRES TRUE` line, `line` is the printed
`block->begin_line`, `text` the printed `block->condition`. -/
structure TraceEntry where
  req : Bool
  line : Nat
  text : String
deriving DecidableEq, Repr

mutual
/-- `struct conditional`: one full group from the opening if/ifdef/ifndef
(`begin_line`) to the terminating endif (`end_line`), with its branch blocks. -/
inductive Conditional : Type where
  | mk (begin_line end_line : Nat) (blocks : List Block)

/-- `struct conditional_block`: one branch of a group, from its opening
directive (`begin_line`) to the directive that closes it (`end_line`),
carrying the opening directive's full logical-line text (`condition`)
and the conditionals nested inside this branch (`nested_conditionals`). -/
inductive Block : Type where
  | mk (begin_line end_line : Nat) (condition : String) (nested_conditionals : List Conditional)
end

def Conditional.begin_line : Conditional → Nat
  | .mk b _ _ => b

def Conditional.end_line : Conditional → Nat
  | .mk _ e _ => e

def Conditional.blocks : Conditional → List Block
  | .mk _ _ bs => bs

def Block.begin_line : Block → Nat
  | .mk b _ _ _ => b

def Block.end_line : Block → Nat
  | .mk _ e _ _ => e

def Block.condition : Block → String
  | .mk _ _ c _ => c

def Block.nested_conditionals : Block → List Conditional
  | .mk _ _ _ n => n

/-- The characters of `static constexpr const char whitespace[] = " \t\v"`. -/
def isWsChar (c : Char) : Bool := c = ' ' || c = '\t' || c = '\x0b'

/-- Directive classification, as done at the top of `main`'s read loop:
skip leading space/tab/vertical-tab; require `'#'`; skip whitespace after the
`'#'` (if only whitespace follows, the line is ill-formed and ignored);
the keyword is the maximal run of alphabetic characters from there.
Returns `none` when the line is not a directive at all (including the
ill-formed `'#'`-then-only-whitespace case, which `main` `continue`s past),
and `some keyword` otherwise. -/
def classify (s : String) : Option String :=
  match s.data.dropWhile isWsChar with
  | [] => none
  | c :: rest =>
    if c = '#' then
      match rest.dropWhile isWsChar with
      | [] => none
      | rest2 => some (String.mk (rest2.takeWhile Char.isAlpha))
    else none

/-- The line-continuation merge loop: while the accumulated logical line is
nonempty, ends in a backslash, and the stream still has lines (`stream.good()`),
append a newline and the next physical line. Returns the merged logical line,
the number of physical lines consumed (`linesRead`), and the remaining lines. -/
def mergeCont (acc : String) : List String → String × Nat × List String
  | [] => (acc, 1, [])
  | next :: rest =>
    if acc ≠ "" ∧ acc.back = '\\' then
      let r := mergeCont (acc ++ "\n" ++ next) rest
      (r.1, r.2.1 + 1, r.2.2)
    else (acc, 1, next :: rest)

/-- The read loop's line accounting: produce the list of logical lines as
`(currentLineNumber, linesRead, text)` triples, starting the counter at `n`
and advancing it by `linesRead` each iteration. `fuel` bounds the recursion
and is always instantiated with the number of physical lines, which
suffices because every logical line consumes at least one physical line. -/
def logicalLinesAux : Nat → Nat → List String → List (Nat × Nat × String)
  | 0, _, _ => []
  | _ + 1, _, [] => []
  | fuel + 1, n, l :: rest =>
    let m := mergeCont l rest
    (n, m.2.1, m.1) :: logicalLinesAux fuel (n + m.2.1) m.2.2

/-- All logical lines of a file (given as its list of physical lines),
numbered from 1 as in `main` (`int currentLineNumber = 1`). -/
def logicalLines (phys : List String) : List (Nat × Nat × String) :=
  logicalLinesAux phys.length 1 phys

/-- One currently-open conditional on the builder's `stateStack`: its opening
line, its already-closed blocks, and the still-open last block's opening line,
condition text, and nested conditionals collected so far. -/
structure OpenCond where
  obegin : Nat
  closed : List Block
  curBegin : Nat
  curText : String
  curNested : List Conditional

/-- The builder's mutable state: completed top-level conditionals
(`std::vector<conditional> conditionals`) and the stack of open conditionals
(`std::vector<conditional*> stateStack`), innermost first. -/
structure BuildState where
  toplevel : List Conditional
  stack : List OpenCond

/-- The three structural directive errors detected by `main`'s read loop,
each of which makes `main` return `-1`. -/
inductive BuildError where
  | unmatchedElse
  | unmatchedEndif
  | unterminated
deriving DecidableEq, Repr

/-- Complete the open block of an open conditional at closing line `ln`
(setting `end_line = currentLineNumber` on the last block). -/
def closeBlock (oc : OpenCond) (ln : Nat) : Block :=
  .mk oc.curBegin ln oc.curText oc.curNested

/-- One iteration of `main`'s read loop on logical line `text` starting at
physical line `ln`:
  - if/ifdef/ifndef: open a new conditional (pushed on the stack) whose first
    block starts at `ln` with `condition = text`;
  - else/elif: with an empty stack this is the fatal "else outside of a
    conditional" error; otherwise close the top conditional's last block at
    `ln` and append a fresh block starting at `ln`;
  - endif: with an empty stack this is the fatal "'#endif' with no matching
    conditional" error; otherwise set the top conditional's `end_line` and its
    last block's `end_line` to `ln` and pop it — attaching it to the enclosing
    open block's `nested_conditionals` if one exists, else to the top level;
  - anything else (non-directives, unknown keywords): no state change. -/
def buildStep (ln : Nat) (text : String) (st : BuildState) : Except BuildError BuildState :=
  match classify text with
  | none => .ok st
  | some d =>
    if d = "if" ∨ d = "ifdef" ∨ d = "ifndef" then
      .ok ⟨st.toplevel, ⟨ln, [], ln, text, []⟩ :: st.stack⟩
    else if d = "else" ∨ d = "elif" then
      match st.stack with
      | [] => .error .unmatchedElse
      | oc :: rest =>
        .ok ⟨st.toplevel, ⟨oc.obegin, oc.closed ++ [closeBlock oc ln], ln, text, []⟩ :: rest⟩
    else if d = "endif" then
      match st.stack with
      | [] => .error .unmatchedEndif
      | oc :: rest =>
        match rest with
        | [] =>
          .ok ⟨st.toplevel ++ [Conditional.mk oc.obegin ln (oc.closed ++ [closeBlock oc ln])], []⟩
        | oc2 :: rest2 =>
          .ok ⟨st.toplevel,
            ⟨oc2.obegin, oc2.closed, oc2.curBegin, oc2.curText,
              oc2.curNested ++ [Conditional.mk oc.obegin ln (oc.closed ++ [closeBlock oc ln])]⟩ :: rest2⟩
    else
      .ok st

/-- Run the builder over the remaining logical lines; at end of input, a
non-empty stack is the fatal "end of file with an active conditional block"
error, otherwise the forest is the completed top-level list. -/
def buildFrom (st : BuildState) : List (Nat × Nat × String) → Except BuildError (List Conditional)
  | [] => if st.stack.isEmpty then .ok st.toplevel else .error .unterminated
  | (n, _, t) :: rest =>
    match buildStep n t st with
    | .error e => .error e
    | .ok st' => buildFrom st' rest

/-- Build the forest from a file's physical lines: one single pass. -/
def build (phys : List String) : Except BuildError (List Conditional) :=
  buildFrom ⟨[], []⟩ (logicalLines phys)

mutual
/-- `process_line`: scan the sibling conditionals for the first whose
inclusive range `[begin_line, end_line]` contains the target line, and emit
that conditional's block trace; a line in no sibling's range yields nothing. -/
def process_line (line : Nat) : List Conditional → List TraceEntry
  | [] => []
  | Conditional.mk b e blocks :: rest =>
    if b ≤ line ∧ e ≥ line then
      processBlocks line blocks
    else
      process_line line rest
termination_by cs => sizeOf cs

/-- The block loop inside `process_line`: scan the blocks in order; a block
whose half-open range `[begin_line, end_line)` contains the target line is
emitted as `TRUE` followed by the recursive trace of its nested conditionals,
and the scan stops; every block scanned before it is emitted as `FALSE`. -/
def processBlocks (line : Nat) : List Block → List TraceEntry
  | [] => []
  | Block.mk b e c nested :: rest =>
    if b ≤ line ∧ e > line then
      ⟨true, b, c⟩ :: process_line line nested
    else
      ⟨false, b, c⟩ :: processBlocks line rest
termination_by bs => sizeOf bs
end

/-- `std::atoi`'s digit-accumulation phase. -/
def atoiDigits : List Char → Nat → Nat
  | [], acc => acc
  | c :: rest, acc => if c.isDigit then atoiDigits rest (10 * acc + (c.toNat - 48)) else acc

/-- The whitespace class skipped by `std::atoi`. -/
def isCSpace (c : Char) : Bool :=
  c = ' ' || c = '\t' || c = '\n' || c = '\x0b' || c = '\x0c' || c = '\r'

/-- `std::atoi`: skip whitespace, optional sign, then a run of digits;
no digits yields 0. -/
def atoi (s : String) : Int :=
  match s.data.dropWhile isCSpace with
  | '-' :: rest => - (atoiDigits rest 0 : Int)
  | '+' :: rest => (atoiDigits rest 0 : Int)
  | rest => (atoiDigits rest 0 : Int)

/-- The first byte of an argument string (`**begin`); the empty string reads
its NUL terminator. -/
def firstChar (s : String) : Char :=
  match s.data with
  | [] => '\x00'
  | c :: _ => c

/-- Outcome of `main`'s argument loop: the `--help` early exit (code 0), an
argument error (usage printed, code 1), or a file path plus target lines. -/
inductive ParseResult where
  | help
  | argError
  | ok (filePath : String) (lineNums : List Nat)
deriving DecidableEq, Repr

/-- The inner `--lines` loop: consume arguments not starting with `'-'`;
each must `atoi` to a positive value (else the "Invalid line number" error,
reported as `none`); return the unconsumed arguments and collected lines. -/
def consumeLineArgs : List String → List Nat → Option (List String × List Nat)
  | [], lineNums => some ([], lineNums)
  | a :: rest, lineNums =>
    if firstChar a = '-' then some (a :: rest, lineNums)
    else if atoi a ≤ 0 then none
    else consumeLineArgs rest (lineNums ++ [(atoi a).toNat])

/-- `main`'s argument loop. `--file` consumes the following argument as the
path (duplicate or missing path is an error); `--lines` consumes following
number arguments; `--help` returns immediately; anything else is an
unrecognized-argument error. After the loop, a missing path or missing lines
is an error. `fuel` bounds the recursion and is always instantiated with the
argument count, which suffices because every step consumes an argument. -/
def parseLoop : Nat → List String → String → List Nat → ParseResult
  | 0, _, _, _ => .argError
  | _ + 1, [], filePath, lineNums =>
    if filePath = "" then .argError
    else if lineNums = [] then .argError
    else .ok filePath lineNums
  | fuel + 1, arg :: rest, filePath, lineNums =>
    if arg = "--file" then
      if filePath ≠ "" then .argError
      else
        match rest with
        | [] => .argError
        | p :: rest2 => parseLoop fuel rest2 p lineNums
    else if arg = "--lines" then
      match consumeLineArgs rest lineNums with
      | none => .argError
      | some (rest2, lineNums2) => parseLoop fuel rest2 filePath lineNums2
    else if arg = "--help" then .help
    else .argError

/-- Parse a full argument list (everything after `argv[0]`). -/
def parseArgs (args : List String) : ParseResult :=
  parseLoop (args.length + 1) args "" []

/-- The post-parse phase of `main` on an opened file: build the forest once;
a structural error returns exit code `-1` with no queries run; otherwise run
`process_line` once per requested target line and return exit code `0`. -/
def runTool (phys : List String) (targets : List Nat) : Int × List (List TraceEntry) :=
  match build phys with
  | .error _ => (-1, [])
  | .ok forest => (0, targets.map fun t => process_line t forest)

/-- The whole of `main`, with the file system modelled as a partial map from
paths to physical-line lists (`none` means the `ifstream` fails to open):
`--help` exits 0; argument errors and an unopenable file exit 1; otherwise
the tool runs on the file's lines. The second component is the list of
per-target traces (empty when no query ran). -/
def whenPresentMain (args : List String) (fs : String → Option (List String)) :
    Int × List (List TraceEntry) :=
  match parseArgs args with
  | .help => (0, [])
  | .argError => (1, [])
  | .ok filePath targets =>
    match fs filePath with
    | none => (1, [])
    | some phys => runTool phys targets

mutual
/-- Well-formedness of one conditional: a non-empty block list chaining from
`begin_line` to `end_line`. -/
def CondWF : Conditional → Prop
  | .mk b e blocks => blocks ≠ [] ∧ BlocksChain b blocks e

/-- The blocks of a conditional, chained: each block starts where instructed
(`lo`), ends no earlier than it starts, has well-formed nested conditionals,
and hands its `end_line` to the next block as its `begin_line`; the final
block's `end_line` is `hi`. -/
def BlocksChain : Nat → List Block → Nat → Prop
  | lo, [], hi => lo = hi
  | lo, .mk b e _ nested :: rest, hi =>
    b = lo ∧ b ≤ e ∧ CondsWF nested ∧ BlocksChain e rest hi

/-- Well-formedness of every conditional in a list. -/
def CondsWF : List Conditional → Prop
  | [] => True
  | c :: rest => CondWF c ∧ CondsWF rest
end

/-- Membership of a conditional in a forest at any nesting depth: either a
top-level member, or inside some block of a member. -/
inductive CondIn : Conditional → List Conditional → Prop where
  | top {c : Conditional} {cs : List Conditional} : c ∈ cs → CondIn c cs
  | deeper {c c' : Conditional} {cs : List Conditional} (b : Block) :
      c' ∈ cs → b ∈ c'.blocks → CondIn c b.nested_conditionals → CondIn c cs

/-- Invariant of the builder state while the scan sits just before line `n`:
every completed conditional is well-formed, and every open conditional's
closed blocks chain from its opening line to its current block's opening
line, which is at most `n`; its current block's nested conditionals are
well-formed. -/
def StateWF (n : Nat) (st : BuildState) : Prop :=
  CondsWF st.toplevel ∧
    ∀ oc ∈ st.stack,
      BlocksChain oc.obegin oc.closed oc.curBegin ∧ oc.curBegin ≤ n ∧ CondsWF oc.curNested

/-- The logical-line stream is correctly numbered from `n`: each entry's
recorded start is the running counter, it consumed at least one physical
line, and the counter advances by exactly the consumed count. -/
def NumberedFrom : Nat → List (Nat × Nat × String) → Prop
  | _, [] => True
  | n, (m, k, _) :: rest => m = n ∧ 1 ≤ k ∧ NumberedFrom (n + k) rest

/-- Weaker stream property used while folding the builder: entries start at
or after `n`, consume at least one line, and are strictly increasing. -/
def AscendingFrom : Nat → List (Nat × Nat × String) → Prop
  | _, [] => True
  | n, (m, k, _) :: rest => n ≤ m ∧ 1 ≤ k ∧ AscendingFrom (m + k) rest

/-- Modelled from the spec (§4.1, and the claim's wording): the keyword of a
directive line is the maximal run of alphabetic characters after the `'#'`
and any whitespace following it; a blank line or one whose first non-blank
character is not `'#'` is not a directive. -/
def keywordSpec (s : String) : Option String :=
  match s.data.dropWhile isWsChar with
  | [] => none
  | c :: rest =>
    if c = '#' then some (String.mk ((rest.dropWhile isWsChar).takeWhile Char.isAlpha))
    else none

/-- The six structural keywords, matched case-sensitively by the builder. -/
def structuralKeywords : List String := ["if", "ifdef", "ifndef", "else", "elif", "endif"]

/-- The structurally relevant directive of a line as the code computes it:
`classify`, filtered to the six keywords the builder dispatches on. -/
def dirOf (s : String) : Option String :=
  match classify s with
  | none => none
  | some kw => if kw ∈ structuralKeywords then some kw else none

/-- The structurally relevant directive of a line as the spec describes it:
`keywordSpec`, filtered to the six keywords. -/
def dirOfSpec (s : String) : Option String :=
  match keywordSpec s with
  | none => none
  | some kw => if kw ∈ structuralKeywords then some kw else none

/-- The FALSE trace entry a block contributes when scanned past. -/
def falseEntry (b : Block) : TraceEntry := ⟨false, b.begin_line, b.condition⟩

/-- Example 1 of the spec: `#if A` / `x;` / `#else` / `y;` / `#endif`. -/
def ex1 : List String := ["#if A", "x;", "#else", "y;", "#endif"]

/-- The single conditional group of `ex1`: lines 1-5, with an `#if` block
spanning `[1, 3)` and an `#else` block spanning `[3, 5)`. -/
def ex1Cond : Conditional :=
  .mk 1 5 [.mk 1 3 "#if A" [], .mk 3 5 "#else" []]

/-- The forest built from `ex1`. -/
def ex1Forest : List Conditional := [ex1Cond]

/-- Join continuation lines the way the merge loop does: each further
physical line is appended after a newline (the trailing backslash is kept). -/
def joinNL (acc : String) : List String → String
  | [] => acc
  | l :: rest => joinNL (acc ++ "\n" ++ l) rest

theorem blocksChain_le {lo hi : Nat} {bs : List Block} (h : BlocksChain lo bs hi) : lo ≤ hi := by
  induction bs generalizing lo with
  | nil => simp only [BlocksChain] at h; omega
  | cons b rest ih =>
    cases b with
    | mk bb be bc bn =>
      simp only [BlocksChain] at h
      have := ih h.2.2.2
      omega

theorem condWF_le {c : Conditional} (h : CondWF c) : c.begin_line ≤ c.end_line := by
  cases c with
  | mk b e blocks =>
    simp only [CondWF] at h
    exact blocksChain_le h.2

theorem condsWF_mem {cs : List Conditional} {c : Conditional}
    (h : CondsWF cs) (hc : c ∈ cs) : CondWF c := by
  induction cs with
  | nil => cases hc
  | cons c0 rest ih =>
    simp only [CondsWF] at h
    rcases List.mem_cons.mp hc with he | ht
    · exact he ▸ h.1
    · exact ih h.2 ht

theorem condsWF_append_one {cs : List Conditional} {c : Conditional}
    (h : CondsWF cs) (hc : CondWF c) : CondsWF (cs ++ [c]) := by
  induction cs with
  | nil => simpa [CondsWF] using hc
  | cons c0 rest ih =>
    simp only [CondsWF] at h ⊢
    exact ⟨h.1, ih h.2⟩

theorem blocksChain_snoc {lo mid e : Nat} {bs : List Block} {t : String}
    {nested : List Conditional} (h : BlocksChain lo bs mid) (hn : CondsWF nested)
    (hme : mid ≤ e) : BlocksChain lo (bs ++ [Block.mk mid e t nested]) e := by
  induction bs generalizing lo with
  | nil =>
    simp only [BlocksChain] at h
    subst h
    simp only [List.nil_append, BlocksChain]
    exact ⟨trivial, hme, hn, trivial⟩
  | cons b rest ih =>
    cases b with
    | mk bb be bc bn =>
      simp only [BlocksChain] at h
      simp only [List.cons_append, BlocksChain]
      exact ⟨h.1, h.2.1, h.2.2.1, ih h.2.2.2⟩

theorem blocksChain_mem_nested {lo hi : Nat} {bs : List Block} {b : Block}
    (h : BlocksChain lo bs hi) (hb : b ∈ bs) : CondsWF b.nested_conditionals := by
  induction bs generalizing lo with
  | nil => cases hb
  | cons b0 rest ih =>
    cases b0 with
    | mk bb be bc bn =>
      simp only [BlocksChain] at h
      rcases List.mem_cons.mp hb with he | ht
      · subst he; exact h.2.2.1
      · exact ih h.2.2.2 ht

theorem condIn_wf {cs : List Conditional} {c : Conditional}
    (hwf : CondsWF cs) (hin : CondIn c cs) : CondWF c := by
  induction hin with
  | top hc => exact condsWF_mem hwf hc
  | @deeper c' cs b hc' hb _ ih =>
    have hc'wf : CondWF c' := condsWF_mem hwf hc'
    cases c' with
    | mk cb ce cblocks =>
      simp only [CondWF] at hc'wf
      exact ih (blocksChain_mem_nested hc'wf.2 hb)

theorem processBlocks_all_false {lo hi : Nat} {bs : List Block}
    (h : BlocksChain lo bs hi) : processBlocks hi bs = bs.map falseEntry := by
  induction bs generalizing lo with
  | nil => simp [processBlocks]
  | cons b rest ih =>
    cases b with
    | mk bb be bc bn =>
      simp only [BlocksChain] at h
      have hbe : be ≤ hi := blocksChain_le h.2.2.2
      simp only [processBlocks, List.map_cons]
      rw [if_neg (by omega)]
      simp only [falseEntry, Block.begin_line, Block.condition, List.cons.injEq]
      exact ⟨trivial, ih h.2.2.2⟩

theorem processBlocks_found {lo hi line : Nat} {bs : List Block}
    (h : BlocksChain lo bs hi) (hlo : lo ≤ line) (hhi : line < hi) :
    ∃ pre b post, bs = pre ++ b :: post ∧
      (∀ b' ∈ pre, ¬(b'.begin_line ≤ line ∧ b'.end_line > line)) ∧
      (b.begin_line ≤ line ∧ b.end_line > line) ∧
      processBlocks line bs =
        pre.map falseEntry ++
          ⟨true, b.begin_line, b.condition⟩ :: process_line line b.nested_conditionals := by
  induction bs generalizing lo with
  | nil => simp only [BlocksChain] at h; omega
  | cons b0 rest ih =>
    cases b0 with
    | mk bb be bc bn =>
      simp only [BlocksChain] at h
      obtain ⟨hbeq, hble, hnwf, hchain⟩ := h
      by_cases hfound : line < be
      · refine ⟨[], Block.mk bb be bc bn, rest, by simp, by simp, ?_, ?_⟩
        · simp only [Block.begin_line, Block.end_line]; omega
        · simp only [processBlocks, List.map_nil, List.nil_append]
          rw [if_pos (by omega)]
          simp [Block.begin_line, Block.condition, Block.nested_conditionals]
      · obtain ⟨pre, b, post, hsplit, hpre, hcont, heq⟩ :=
          ih hchain (by omega)
        refine ⟨Block.mk bb be bc bn :: pre, b, post, by rw [hsplit]; simp, ?_, hcont, ?_⟩
        · intro b' hb'
          rcases List.mem_cons.mp hb' with he | ht
          · subst he
            simp only [Block.begin_line, Block.end_line]
            omega
          · exact hpre b' ht
        · simp only [processBlocks]
          rw [if_neg (by omega)]
          simp only [List.map_cons, List.cons_append, List.cons.injEq]
          exact ⟨by simp [falseEntry, Block.begin_line, Block.condition], heq⟩

theorem process_line_nil_of_out {line : Nat} {cs : List Conditional}
    (h : ∀ c ∈ cs, ¬(c.begin_line ≤ line ∧ c.end_line ≥ line)) :
    process_line line cs = [] := by
  induction cs with
  | nil => simp [process_line]
  | cons c rest ih =>
    cases c with
    | mk b e blocks =>
      have hne := h _ (List.mem_cons_self _ _)
      simp only [Conditional.begin_line, Conditional.end_line] at hne
      simp only [process_line]
      rw [if_neg hne]
      exact ih fun c' hc' => h c' (List.mem_cons_of_mem _ hc')

theorem buildStep_none {ln : Nat} {text : String} {st : BuildState}
    (hc : classify text = none) : buildStep ln text st = .ok st := by
  simp [buildStep, hc]

theorem buildStep_open {ln : Nat} {text d : String} {st : BuildState}
    (hc : classify text = some d) (hd : d = "if" ∨ d = "ifdef" ∨ d = "ifndef") :
    buildStep ln text st = .ok ⟨st.toplevel, ⟨ln, [], ln, text, []⟩ :: st.stack⟩ := by
  rcases hd with rfl | rfl | rfl <;> simp [buildStep, hc]

theorem buildStep_branch_nil {ln : Nat} {text d : String} {st : BuildState}
    (hc : classify text = some d) (hd : d = "else" ∨ d = "elif") (hs : st.stack = []) :
    buildStep ln text st = .error .unmatchedElse := by
  rcases hd with rfl | rfl <;> simp [buildStep, hc, hs]

theorem buildStep_branch_cons {ln : Nat} {text d : String} {st : BuildState}
    {oc : OpenCond} {rest : List OpenCond}
    (hc : classify text = some d) (hd : d = "else" ∨ d = "elif") (hs : st.stack = oc :: rest) :
    buildStep ln text st =
      .ok ⟨st.toplevel, ⟨oc.obegin, oc.closed ++ [closeBlock oc ln], ln, text, []⟩ :: rest⟩ := by
  rcases hd with rfl | rfl <;> simp [buildStep, hc, hs]

theorem buildStep_endif_nil {ln : Nat} {text : String} {st : BuildState}
    (hc : classify text = some "endif") (hs : st.stack = []) :
    buildStep ln text st = .error .unmatchedEndif := by
  simp [buildStep, hc, hs]

theorem buildStep_endif_top {ln : Nat} {text : String} {st : BuildState} {oc : OpenCond}
    (hc : classify text = some "endif") (hs : st.stack = [oc]) :
    buildStep ln text st =
      .ok ⟨st.toplevel ++ [Conditional.mk oc.obegin ln (oc.closed ++ [closeBlock oc ln])], []⟩ := by
  simp [buildStep, hc, hs]

theorem buildStep_endif_nested {ln : Nat} {text : String} {st : BuildState}
    {oc oc2 : OpenCond} {rest2 : List OpenCond}
    (hc : classify text = some "endif") (hs : st.stack = oc :: oc2 :: rest2) :
    buildStep ln text st =
      .ok ⟨st.toplevel,
        ⟨oc2.obegin, oc2.closed, oc2.curBegin, oc2.curText,
          oc2.curNested ++ [Conditional.mk oc.obegin ln (oc.closed ++ [closeBlock oc ln])]⟩ :: rest2⟩ := by
  simp [buildStep, hc, hs]

theorem buildStep_other {ln : Nat} {text d : String} {st : BuildState}
    (hc : classify text = some d)
    (hd1 : ¬(d = "if" ∨ d = "ifdef" ∨ d = "ifndef"))
    (hd2 : ¬(d = "else" ∨ d = "elif")) (hd3 : d ≠ "endif") :
    buildStep ln text st = .ok st := by
  simp only [buildStep, hc]
  rw [if_neg hd1, if_neg hd2, if_neg hd3]

theorem stateWF_mono {n m : Nat} {st : BuildState} (h : StateWF n st) (hnm : n ≤ m) :
    StateWF m st := by
  refine ⟨h.1, fun oc hoc => ?_⟩
  have hthis := h.2 oc hoc
  exact ⟨hthis.1, le_trans hthis.2.1 hnm, hthis.2.2⟩

theorem buildStep_wf {n m : Nat} {st st' : BuildState} {text : String}
    (hwf : StateWF n st) (hnm : n ≤ m)
    (h : buildStep m text st = .ok st') : StateWF (m + 1) st' := by
  cases hc : classify text with
  | none =>
    rw [buildStep_none hc] at h
    cases h
    exact stateWF_mono hwf (by omega)
  | some d =>
    by_cases h1 : d = "if" ∨ d = "ifdef" ∨ d = "ifndef"
    · rw [buildStep_open hc h1] at h
      cases h
      refine ⟨hwf.1, fun oc hoc => ?_⟩
      rcases List.mem_cons.mp hoc with he | ht
      · subst he
        exact ⟨by simp [BlocksChain], by show m ≤ m + 1; omega, by simp [CondsWF]⟩
      · have hthis := hwf.2 oc ht
        exact ⟨hthis.1, by omega, hthis.2.2⟩
    · by_cases h2 : d = "else" ∨ d = "elif"
      · cases hs : st.stack with
        | nil => rw [buildStep_branch_nil hc h2 hs] at h; cases h
        | cons oc rest =>
          rw [buildStep_branch_cons hc h2 hs] at h
          cases h
          have hmem : oc ∈ st.stack := by rw [hs]; exact List.mem_cons_self _ _
          have hoc := hwf.2 oc hmem
          refine ⟨hwf.1, fun oc' hoc' => ?_⟩
          rcases List.mem_cons.mp hoc' with he | ht
          · subst he
            refine ⟨?_, by show m ≤ m + 1; omega, by simp [CondsWF]⟩
            exact blocksChain_snoc hoc.1 hoc.2.2 (le_trans hoc.2.1 hnm)
          · have hmem2 : oc' ∈ st.stack := by rw [hs]; exact List.mem_cons_of_mem _ ht
            have hthis := hwf.2 oc' hmem2
            exact ⟨hthis.1, by omega, hthis.2.2⟩
      · by_cases h3 : d = "endif"
        · subst h3
          cases hs : st.stack with
          | nil => rw [buildStep_endif_nil hc hs] at h; cases h
          | cons oc rest =>
            have hmem : oc ∈ st.stack := by rw [hs]; exact List.mem_cons_self _ _
            have hoc := hwf.2 oc hmem
            have hcwf : CondWF (Conditional.mk oc.obegin m (oc.closed ++ [closeBlock oc m])) := by
              simp only [CondWF]
              exact ⟨by simp, blocksChain_snoc hoc.1 hoc.2.2 (le_trans hoc.2.1 hnm)⟩
            cases rest with
            | nil =>
              rw [buildStep_endif_top hc hs] at h
              cases h
              exact ⟨condsWF_append_one hwf.1 hcwf, by simp⟩
            | cons oc2 rest2 =>
              rw [buildStep_endif_nested hc hs] at h
              cases h
              have hmem2 : oc2 ∈ st.stack := by
                rw [hs]; exact List.mem_cons_of_mem _ (List.mem_cons_self _ _)
              have hoc2 := hwf.2 oc2 hmem2
              refine ⟨hwf.1, fun oc' hoc' => ?_⟩
              rcases List.mem_cons.mp hoc' with he | ht
              · subst he
                exact ⟨hoc2.1, by show oc2.curBegin ≤ m + 1; omega,
                  condsWF_append_one hoc2.2.2 hcwf⟩
              · have hmem3 : oc' ∈ st.stack := by
                  rw [hs]
                  exact List.mem_cons_of_mem _ (List.mem_cons_of_mem _ ht)
                have hthis := hwf.2 oc' hmem3
                exact ⟨hthis.1, by omega, hthis.2.2⟩
        · rw [buildStep_other hc h1 h2 h3] at h
          cases h
          exact stateWF_mono hwf (by omega)

theorem ascendingFrom_mono {n m : Nat} {lps : List (Nat × Nat × String)}
    (h : AscendingFrom n lps) (hmn : m ≤ n) : AscendingFrom m lps := by
  cases lps with
  | nil => trivial
  | cons p rest =>
    obtain ⟨a, k, t⟩ := p
    simp only [AscendingFrom] at h ⊢
    exact ⟨by omega, h.2.1, h.2.2⟩

theorem buildFrom_wf {lps : List (Nat × Nat × String)} :
    ∀ {st : BuildState} {n : Nat} {forest : List Conditional},
      StateWF n st → AscendingFrom n lps → buildFrom st lps = .ok forest →
      CondsWF forest := by
  induction lps with
  | nil =>
    intro st n forest hwf _ h
    simp only [buildFrom] at h
    by_cases hs : st.stack.isEmpty
    · rw [if_pos hs] at h
      cases h
      exact hwf.1
    · rw [if_neg hs] at h
      cases h
  | cons p rest ih =>
    obtain ⟨m, k, t⟩ := p
    intro st n forest hwf hasc h
    simp only [buildFrom] at h
    simp only [AscendingFrom] at hasc
    cases hb : buildStep m t st with
    | error e =>
      simp only [hb] at h
      cases h
    | ok st' =>
      simp only [hb] at h
      exact ih (buildStep_wf hwf hasc.1 hb)
        (ascendingFrom_mono hasc.2.2 (by omega)) h

theorem mergeCont_consumed_pos (acc : String) (rest : List String) :
    1 ≤ (mergeCont acc rest).2.1 := by
  induction rest generalizing acc with
  | nil => simp [mergeCont]
  | cons next rest ih =>
    by_cases hc : acc ≠ "" ∧ acc.back = '\\'
    · simp only [mergeCont, if_pos hc]
      omega
    · simp only [mergeCont, if_neg hc]
      omega

theorem numberedFrom_aux (fuel : Nat) :
    ∀ (n : Nat) (phys : List String), NumberedFrom n (logicalLinesAux fuel n phys) := by
  induction fuel with
  | zero => intro n phys; simp [logicalLinesAux, NumberedFrom]
  | succ fuel ih =>
    intro n phys
    cases phys with
    | nil => simp [logicalLinesAux, NumberedFrom]
    | cons l rest =>
      simp only [logicalLinesAux, NumberedFrom]
      exact ⟨by simp, mergeCont_consumed_pos l rest, ih _ _⟩

theorem numberedFrom_ascending {n : Nat} {lps : List (Nat × Nat × String)}
    (h : NumberedFrom n lps) : AscendingFrom n lps := by
  induction lps generalizing n with
  | nil => trivial
  | cons p rest ih =>
    obtain ⟨m, k, t⟩ := p
    simp only [NumberedFrom] at h
    obtain ⟨he, hk, hrest⟩ := h
    subst he
    simp only [AscendingFrom]
    exact ⟨le_refl _, hk, ih hrest⟩

theorem build_wf {phys : List String} {forest : List Conditional}
    (h : build phys = .ok forest) : CondsWF forest := by
  have hwf : StateWF 1 ⟨[], []⟩ := by
    refine ⟨by simp [CondsWF], fun oc hoc => absurd hoc (List.not_mem_nil _)⟩
  exact buildFrom_wf hwf (numberedFrom_ascending (numberedFrom_aux _ 1 phys)) h

theorem process_line_at_end {c : Conditional} (hwf : CondWF c) (rest : List Conditional) :
    process_line c.end_line (c :: rest) = c.blocks.map falseEntry := by
  cases c with
  | mk b e blocks =>
    simp only [CondWF] at hwf
    simp only [process_line, Conditional.end_line, Conditional.blocks]
    rw [if_pos ⟨blocksChain_le hwf.2, le_refl _⟩]
    exact processBlocks_all_false hwf.2

theorem blocksChain_head {lo hi : Nat} {b : Block} {rest : List Block}
    (h : BlocksChain lo (b :: rest) hi) : b.begin_line = lo := by
  cases b with
  | mk bb be bc bn =>
    simp only [BlocksChain] at h
    simpa [Block.begin_line] using h.1

theorem blocksChain_getLast {lo hi : Nat} {bs : List Block} {b : Block}
    (h : BlocksChain lo bs hi) (hb : bs.getLast? = some b) : b.end_line = hi := by
  induction bs generalizing lo with
  | nil => simp at hb
  | cons b0 rest ih =>
    cases b0 with
    | mk bb be bc bn =>
      simp only [BlocksChain] at h
      cases rest with
      | nil =>
        simp only [List.getLast?_singleton, Option.some.injEq] at hb
        subst hb
        simp only [BlocksChain] at h
        simpa [Block.end_line] using h.2.2.2
      | cons b2 rest2 =>
        rw [List.getLast?_cons_cons] at hb
        exact ih h.2.2.2 hb

theorem blocksChain_adjacent {lo hi : Nat} {bs : List Block}
    (h : BlocksChain lo bs hi) (i : Nat) (hlt : i + 1 < bs.length) :
    (bs.get ⟨i, by omega⟩).end_line = (bs.get ⟨i + 1, hlt⟩).begin_line := by
  induction bs generalizing lo i with
  | nil => simp at hlt
  | cons b0 rest ih =>
    cases b0 with
    | mk bb be bc bn =>
      simp only [BlocksChain] at h
      cases i with
      | zero =>
        cases rest with
        | nil => simp at hlt
        | cons b2 rest2 =>
          have hb2 := blocksChain_head h.2.2.2
          simp [List.get, Block.end_line, hb2]
      | succ j =>
        simp only [List.get]
        exact ih h.2.2.2 j (by simpa using hlt)

theorem mergeCont_spec (rest : List String) : ∀ (acc : String),
    ∃ k, mergeCont acc rest = (joinNL acc (rest.take k), k + 1, rest.drop k) := by
  induction rest with
  | nil => intro acc; exact ⟨0, by simp [mergeCont, joinNL]⟩
  | cons next rest ih =>
    intro acc
    by_cases hc : acc ≠ "" ∧ acc.back = '\\'
    · obtain ⟨k, hk⟩ := ih (acc ++ "\n" ++ next)
      refine ⟨k + 1, ?_⟩
      simp only [mergeCont, if_pos hc, hk, List.take_succ_cons, List.drop_succ_cons, joinNL]
    · exact ⟨0, by simp [mergeCont, if_neg hc, joinNL]⟩

theorem dirOf_eq_spec (s : String) : dirOf s = dirOfSpec s := by
  unfold dirOf dirOfSpec classify keywordSpec
  cases hd : s.data.dropWhile isWsChar with
  | nil => rfl
  | cons c rest =>
    by_cases hc : c = '#'
    · subst hc
      cases hr : rest.dropWhile isWsChar with
      | nil => simp [hr, structuralKeywords]
      | cons c2 rest2 => simp [hr]
    · simp [hc]

theorem blocksChain_mem_end_le {lo hi : Nat} {bs : List Block} {b : Block}
    (h : BlocksChain lo bs hi) (hb : b ∈ bs) : b.end_line ≤ hi := by
  induction bs generalizing lo with
  | nil => cases hb
  | cons b0 rest ih =>
    cases b0 with
    | mk bb be bc bn =>
      simp only [BlocksChain] at h
      rcases List.mem_cons.mp hb with he | ht
      · subst he
        simpa [Block.end_line] using blocksChain_le h.2.2.2
      · exact ih h.2.2.2 ht

/-- C1: for the five-line input `#if A` / `x;` / `#else` / `y;` / `#endif`,
building the forest and querying target line 4 yields exit code 0 and exactly
the ordered trace `FALSE` at line 1 with text `#if A`, then `TRUE` at line 3
with text `#else`, and no other entries. -/
theorem c1_example_trace :
    runTool ex1 [4] = (0, [[⟨false, 1, "#if A"⟩, ⟨true, 3, "#else"⟩]]) := by
  have hb : build ex1 = .ok ex1Forest := by rfl
  simp only [runTool, hb, List.map_cons, List.map_nil]
  simp [ex1Forest, ex1Cond, process_line, processBlocks]

/-- C2: for every built forest and every conditional in it, the target line
equal to the conditional's `end_line` (the terminating `#endif` line) is
contained in the conditional under the inclusive test, but no block contains
it under the half-open test, so the block scan emits a FALSE entry for every
block and no TRUE entry at that level (and hence does not recurse into any
nested conditionals). -/
theorem c2_endif_boundary {phys : List String} {forest : List Conditional} {c : Conditional}
    (hb : build phys = .ok forest) (hc : CondIn c forest) :
    (c.begin_line ≤ c.end_line ∧ c.end_line ≥ c.end_line) ∧
    (∀ b ∈ c.blocks, ¬(b.begin_line ≤ c.end_line ∧ b.end_line > c.end_line)) ∧
    processBlocks c.end_line c.blocks = c.blocks.map falseEntry ∧
    (∀ rest, process_line c.end_line (c :: rest) = c.blocks.map falseEntry) := by
  have hwf : CondWF c := condIn_wf (build_wf hb) hc
  refine ⟨⟨condWF_le hwf, le_refl _⟩, ?_, ?_, fun rest => process_line_at_end hwf rest⟩
  · intro blk hblk
    cases c with
    | mk b e blocks =>
      simp only [CondWF] at hwf
      simp only [Conditional.blocks] at hblk
      simp only [Conditional.end_line]
      have hle := blocksChain_mem_end_le hwf.2 hblk
      omega
  · cases c with
    | mk b e blocks =>
      simp only [CondWF] at hwf
      simp only [Conditional.end_line, Conditional.blocks]
      exact processBlocks_all_false hwf.2

theorem c2_endif_boundary_witness :
    build ex1 = .ok ex1Forest ∧ CondIn ex1Cond ex1Forest ∧
    processBlocks ex1Cond.end_line ex1Cond.blocks = ex1Cond.blocks.map falseEntry ∧
    process_line ex1Cond.end_line [ex1Cond] = ex1Cond.blocks.map falseEntry := by
  have hb1 : build ex1 = .ok ex1Forest := rfl
  have hcin : CondIn ex1Cond ex1Forest := CondIn.top (List.mem_singleton.mpr rfl)
  exact ⟨hb1, hcin, (c2_endif_boundary hb1 hcin).2.2.1, (c2_endif_boundary hb1 hcin).2.2.2 []⟩

/-- C3: for every conditional in a successfully built forest, the blocks list
is non-empty, the first block begins at the conditional's `begin_line`, the
last block ends at its `end_line`, and each block's `end_line` equals the next
block's `begin_line`: the blocks partition the conditional's range with no gap
or overlap. -/
theorem c3_partition {phys : List String} {forest : List Conditional} {c : Conditional}
    (hb : build phys = .ok forest) (hc : CondIn c forest) :
    c.blocks ≠ [] ∧
    (∀ b, c.blocks.head? = some b → b.begin_line = c.begin_line) ∧
    (∀ b, c.blocks.getLast? = some b → b.end_line = c.end_line) ∧
    (∀ i, ∀ hlt : i + 1 < c.blocks.length,
      (c.blocks.get ⟨i, by omega⟩).end_line = (c.blocks.get ⟨i + 1, hlt⟩).begin_line) := by
  have hwf := condIn_wf (build_wf hb) hc
  cases c with
  | mk b e blocks =>
    simp only [CondWF] at hwf
    simp only [Conditional.blocks, Conditional.begin_line, Conditional.end_line]
    refine ⟨hwf.1, ?_, ?_, ?_⟩
    · intro blk hblk
      cases blocks with
      | nil => simp at hblk
      | cons b0 rest =>
        simp only [List.head?_cons, Option.some.injEq] at hblk
        subst hblk
        exact blocksChain_head hwf.2
    · intro blk hblk
      exact blocksChain_getLast hwf.2 hblk
    · intro i hlt
      exact blocksChain_adjacent hwf.2 i hlt

theorem c3_partition_witness :
    build ex1 = .ok ex1Forest ∧ CondIn ex1Cond ex1Forest ∧ ex1Cond.blocks ≠ [] ∧
    (Block.mk 1 3 "#if A" []).begin_line = ex1Cond.begin_line ∧
    (Block.mk 3 5 "#else" []).end_line = ex1Cond.end_line ∧
    (ex1Cond.blocks.get ⟨0, by decide⟩).end_line =
      (ex1Cond.blocks.get ⟨1, by decide⟩).begin_line := by
  have hb1 : build ex1 = .ok ex1Forest := rfl
  have hcin : CondIn ex1Cond ex1Forest := CondIn.top (List.mem_singleton.mpr rfl)
  exact ⟨hb1, hcin, (c3_partition hb1 hcin).1, (c3_partition hb1 hcin).2.1 _ rfl,
    (c3_partition hb1 hcin).2.2.1 _ rfl, (c3_partition hb1 hcin).2.2.2 0 (by decide)⟩

/-- C4: for every target line in a built conditional's inclusive range, the
block scan emits exactly one TRUE entry when the line is not the terminating
boundary (and none when it is); every block scanned before the TRUE one is
emitted FALSE, and no block after the TRUE one appears in the trace (the scan
stops and only the chosen block's nested conditionals contribute). -/
theorem c4_unique_true {phys : List String} {forest : List Conditional} {c : Conditional}
    {line : Nat} (hb : build phys = .ok forest) (hc : CondIn c forest)
    (hin : c.begin_line ≤ line ∧ line ≤ c.end_line) :
    (line = c.end_line → processBlocks line c.blocks = c.blocks.map falseEntry) ∧
    (line ≠ c.end_line →
      ∃ pre blk post, c.blocks = pre ++ blk :: post ∧
        (∀ b ∈ pre, ¬(b.begin_line ≤ line ∧ b.end_line > line)) ∧
        (blk.begin_line ≤ line ∧ blk.end_line > line) ∧
        processBlocks line c.blocks =
          pre.map falseEntry ++
            ⟨true, blk.begin_line, blk.condition⟩ ::
              process_line line blk.nested_conditionals) := by
  have hwf := condIn_wf (build_wf hb) hc
  cases c with
  | mk b e blocks =>
    simp only [CondWF] at hwf
    simp only [Conditional.begin_line, Conditional.end_line, Conditional.blocks] at hin ⊢
    constructor
    · intro heq
      subst heq
      exact processBlocks_all_false hwf.2
    · intro hne
      exact processBlocks_found hwf.2 hin.1 (by omega)

theorem c4_unique_true_witness :
    build ex1 = .ok ex1Forest ∧ CondIn ex1Cond ex1Forest ∧
    (ex1Cond.begin_line ≤ 4 ∧ 4 ≤ ex1Cond.end_line) ∧ (4 : Nat) ≠ ex1Cond.end_line ∧
    (∃ pre blk post, ex1Cond.blocks = pre ++ blk :: post ∧
      (∀ b ∈ pre, ¬(b.begin_line ≤ 4 ∧ b.end_line > 4)) ∧
      (blk.begin_line ≤ 4 ∧ blk.end_line > 4) ∧
      processBlocks 4 ex1Cond.blocks =
        pre.map falseEntry ++
          ⟨true, blk.begin_line, blk.condition⟩ ::
            process_line 4 blk.nested_conditionals) := by
  have hb1 : build ex1 = .ok ex1Forest := rfl
  have hcin : CondIn ex1Cond ex1Forest := CondIn.top (List.mem_singleton.mpr rfl)
  exact ⟨hb1, hcin, by decide, by decide,
    (c4_unique_true hb1 hcin (by decide)).2 (by decide)⟩

/-- C5: an else/elif with no open conditional, an endif with no open
conditional, and end of input with a conditional still open each abort the
build as a fatal error; the driver then returns exit code `-1` (the value
`main` returns for structural errors), which is non-zero and distinct from
the exit code `1` used for argument and I/O errors, and runs no reachability
query (the trace list stays empty). -/
theorem c5_structural_errors :
    (∀ st ln text d, st.stack = [] → classify text = some d → (d = "else" ∨ d = "elif") →
      buildStep ln text st = .error .unmatchedElse) ∧
    (∀ st ln text, st.stack = [] → classify text = some "endif" →
      buildStep ln text st = .error .unmatchedEndif) ∧
    (∀ st : BuildState, st.stack ≠ [] → buildFrom st [] = .error .unterminated) ∧
    (∀ phys targets e, build phys = .error e → runTool phys targets = (-1, [])) ∧
    ((-1 : Int) ≠ 0 ∧ (-1 : Int) ≠ 1) := by
  refine ⟨?_, ?_, ?_, ?_, by decide, by decide⟩
  · intro st ln text d hs hc hd
    exact buildStep_branch_nil hc hd hs
  · intro st ln text hs hc
    exact buildStep_endif_nil hc hs
  · intro st hs
    have hne : st.stack.isEmpty = false := by
      cases hstack : st.stack with
      | nil => exact absurd hstack hs
      | cons a l => rfl
    simp [buildFrom, hne]
  · intro phys targets e hb
    simp [runTool, hb]

theorem c5_structural_errors_witness :
    (⟨[], []⟩ : BuildState).stack = [] ∧ classify "#else" = some "else" ∧
    classify "#endif" = some "endif" ∧
    buildStep 3 "#else" ⟨[], []⟩ = .error .unmatchedElse ∧
    buildStep 3 "#endif" ⟨[], []⟩ = .error .unmatchedEndif ∧
    buildFrom ⟨[], [⟨1, [], 1, "#if A", []⟩]⟩ [] = .error .unterminated ∧
    build ["#endif"] = .error .unmatchedEndif ∧
    runTool ["#endif"] [1] = (-1, []) := by
  have hb1 : build ["#endif"] = .error .unmatchedEndif := rfl
  exact ⟨rfl, rfl, rfl,
    c5_structural_errors.1 _ 3 "#else" "else" rfl rfl (Or.inl rfl),
    c5_structural_errors.2.1 _ 3 "#endif" rfl rfl,
    c5_structural_errors.2.2.1 _ (by simp),
    hb1,
    c5_structural_errors.2.2.2.1 ["#endif"] [1] .unmatchedEndif hb1⟩

/-- C6: the classifier skips leading space/tab/vertical-tab; a blank line or
one whose first non-blank character is not `#` is not a directive; otherwise
the keyword is the maximal run of alphabetic characters after the `#` and any
whitespace following it, matched case-sensitively against exactly the six
structural keywords; any other keyword, or a `#` with no keyword at all,
causes no builder state change. The first conjunct is the refinement of the
code's classifier against the spec-modelled one. -/
theorem c6_classifier :
    (∀ s, dirOf s = dirOfSpec s) ∧
    (∀ st ln text, dirOf text = none → buildStep ln text st = .ok st) := by
  refine ⟨dirOf_eq_spec, ?_⟩
  intro st ln text hnone
  unfold dirOf at hnone
  cases hc : classify text with
  | none => exact buildStep_none hc
  | some d =>
    rw [hc] at hnone
    have hnone2 : (if d ∈ structuralKeywords then some d else none) = none := hnone
    by_cases hd : d ∈ structuralKeywords
    · rw [if_pos hd] at hnone2
      cases hnone2
    · have hd2 : d ≠ "if" ∧ d ≠ "ifdef" ∧ d ≠ "ifndef" ∧ d ≠ "else" ∧ d ≠ "elif" ∧
          d ≠ "endif" := by
        simpa [structuralKeywords] using hd
      exact buildStep_other hc (by tauto) (by tauto) hd2.2.2.2.2.2

theorem c6_classifier_witness :
    dirOf "#pragma once" = dirOfSpec "#pragma once" ∧ dirOf "#pragma once" = none ∧
    dirOf "  x = 3;" = none ∧ dirOf "#1" = none ∧
    buildStep 7 "#pragma once" ⟨[], []⟩ = .ok ⟨[], []⟩ := by
  exact ⟨c6_classifier.1 _, rfl, rfl, rfl, c6_classifier.2 ⟨[], []⟩ 7 "#pragma once" rfl⟩

/-- C7: physical lines ending in a backslash merge into one logical line:
each logical line is recorded at the physical line where it begins, consumes
at least one physical line, and the counter advances by exactly the consumed
count; the merged text is the consumed physical lines joined by newlines; and
the builder classifies the merged text and stores it as the block's condition
(shown on a concrete file whose `#if` spans two physical lines, so the next
logical line is numbered 3 and the stored condition is the merged text). -/
theorem c7_line_merging :
    (∀ phys, NumberedFrom 1 (logicalLines phys)) ∧
    (∀ l rest, ∃ k, mergeCont l rest = (joinNL l (rest.take k), k + 1, rest.drop k)) ∧
    logicalLines ["#if \\", "A", "x;", "#endif"] =
      [(1, 2, "#if \\\nA"), (3, 1, "x;"), (4, 1, "#endif")] ∧
    build ["#if \\", "A", "x;", "#endif"] =
      .ok [Conditional.mk 1 4 [Block.mk 1 4 "#if \\\nA" []]] := by
  exact ⟨fun phys => numberedFrom_aux _ 1 phys, fun l rest => mergeCont_spec rest l,
    by rfl, by rfl⟩

/-- C8 counterexample: the argument list `["--file", "--help"]` contains
`--help`, yet the program does not exit 0 with usage: the `--file` branch
consumes `--help` as the path, parsing then fails for want of `--lines`, and
the run exits with code 1. -/
theorem c8_help_counterexample :
    "--help" ∈ ["--file", "--help"] ∧
    parseArgs ["--file", "--help"] = .argError ∧
    whenPresentMain ["--file", "--help"] (fun _ => none) = (1, []) ∧
    (1 : Int) ≠ 0 := by
  exact ⟨by simp, rfl, rfl, by decide⟩

/-- C8 (amended): an argument list in which `--help` is reached as a flag by
the left-to-right scan (not consumed as the value of a preceding `--file` and
not preceded by an argument that already terminated parsing) makes the
program print usage and exit 0 without reading any file: whenever the
remaining arguments start with `--help` the parse returns the help outcome,
and a help outcome yields exit code 0 with no queries, independently of the
file system. -/
theorem c8_help_amended :
    (∀ fuel rest filePath lineNums,
      parseLoop (fuel + 1) ("--help" :: rest) filePath lineNums = .help) ∧
    (∀ args fs, parseArgs args = .help → whenPresentMain args fs = (0, [])) ∧
    (∀ args fs fs2, parseArgs args = .help →
      whenPresentMain args fs = whenPresentMain args fs2) := by
  refine ⟨?_, ?_, ?_⟩
  · intro fuel rest filePath lineNums
    simp [parseLoop]
  · intro args fs hp
    simp [whenPresentMain, hp]
  · intro args fs fs2 hp
    simp [whenPresentMain, hp]

theorem c8_help_amended_witness :
    parseLoop 1 ["--help"] "" [] = .help ∧ parseArgs ["--help"] = .help ∧
    whenPresentMain ["--help"] (fun _ => none) = (0, []) ∧
    whenPresentMain ["--help"] (fun _ => none) =
      whenPresentMain ["--help"] (fun _ => some ["#endif"]) := by
  have hp : parseArgs ["--help"] = .help := rfl
  exact ⟨c8_help_amended.1 0 [] "" [], hp,
    c8_help_amended.2.1 ["--help"] _ hp,
    c8_help_amended.2.2 ["--help"] _ _ hp⟩

/-- C9: a target line outside the inclusive range of every top-level
conditional (in particular any line past the end of the file) is neither
validated nor rejected: the query walks the forest, finds no containing
conditional, returns the empty trace, and the run still exits with code 0. -/
theorem c9_out_of_range {phys : List String} {forest : List Conditional} {line : Nat}
    {targets : List Nat} (hb : build phys = .ok forest)
    (hout : ∀ c ∈ forest, ¬(c.begin_line ≤ line ∧ c.end_line ≥ line)) :
    process_line line forest = [] ∧
    runTool phys targets = (0, targets.map fun t => process_line t forest) ∧
    runTool phys [line] = (0, [[]]) := by
  have hnil := process_line_nil_of_out hout
  exact ⟨hnil, by simp [runTool, hb], by simp [runTool, hb, hnil]⟩

theorem c9_out_of_range_witness :
    build ex1 = .ok ex1Forest ∧
    (∀ c ∈ ex1Forest, ¬(c.begin_line ≤ 6 ∧ c.end_line ≥ 6)) ∧
    process_line 6 ex1Forest = [] ∧ runTool ex1 [6] = (0, [[]]) := by
  have hb1 : build ex1 = .ok ex1Forest := rfl
  have hout6 : ∀ c ∈ ex1Forest, ¬(c.begin_line ≤ 6 ∧ c.end_line ≥ 6) := by decide
  exact ⟨hb1, hout6, (@c9_out_of_range ex1 ex1Forest 6 [6] hb1 hout6).1,
    (@c9_out_of_range ex1 ex1Forest 6 [6] hb1 hout6).2.2⟩

/-- C10: the builder imposes no ordering or multiplicity constraint on branch
kinds inside a group: whenever the stack is non-empty, an elif or else always
succeeds, closing the currently open block at its line and appending a fresh
one — regardless of what branches came before; concretely, an input with an
elif after an else and two else branches builds without error into a single
conditional with four contiguous blocks. -/
theorem c10_branch_order_free :
    (∀ st ln text d oc rest, st.stack = oc :: rest → classify text = some d →
      (d = "else" ∨ d = "elif") →
      buildStep ln text st =
        .ok ⟨st.toplevel, ⟨oc.obegin, oc.closed ++ [closeBlock oc ln], ln, text, []⟩ :: rest⟩) ∧
    build ["#if A", "#else", "#elif B", "#else", "#endif"] =
      .ok [Conditional.mk 1 5
        [Block.mk 1 2 "#if A" [], Block.mk 2 3 "#else" [], Block.mk 3 4 "#elif B" [],
          Block.mk 4 5 "#else" []]] := by
  exact ⟨fun st ln text d oc rest hs hc hd => buildStep_branch_cons hc hd hs, rfl⟩

theorem c10_branch_order_free_witness :
    classify "#elif B" = some "elif" ∧
    buildStep 3 "#elif B"
        ⟨[], [⟨1, [Block.mk 1 2 "#if A" [], Block.mk 2 3 "#else" []], 3, "#else x", []⟩]⟩ =
      .ok ⟨[], [⟨1,
        [Block.mk 1 2 "#if A" [], Block.mk 2 3 "#else" [],
          closeBlock ⟨1, [Block.mk 1 2 "#if A" [], Block.mk 2 3 "#else" []], 3, "#else x", []⟩ 3],
        3, "#elif B", []⟩]⟩ := by
  exact ⟨rfl,
    c10_branch_order_free.1 _ 3 "#elif B" "elif" _ _ rfl rfl (Or.inr rfl)⟩
